import Mathlib

/-!
Shallow embedding of the imgui-rs-serialize repository (src/draw_data.rs,
src/util.rs, src/context.rs) and proofs of the specification's claims.

Modelling conventions:
* `f32` fields carry no arithmetic anywhere in the code; each is modelled by
  its 32-bit pattern, a `Nat` (`F32`).  Field-for-field equality of the Rust
  structs is then structural equality of the Lean structures.
* `usize`, `u32`, `u16` and `u8` are modelled as `Nat`, `i32` as `Int`; the
  code performs no wrapping arithmetic on any of them.
* `HashMap<usize, T>` (the backing store of `Textures<T>`) is modelled as the
  map `Nat → Option T`; `HashMap::insert` returns the previous occupant,
  which `Textures.replace` forwards and `Textures.insert` discards.
* Rust panics (`panic!`, `assert!`) are modelled as `Except`/`Option`
  failure results.
-/

namespace ImguiRs

/-- Bit pattern of an IEEE-754 f32 value; the code never computes with the
float, it only stores and copies it, so the 32-bit pattern is the whole
state. -/
abbrev F32 := Nat

/-- An opaque texture identifier (src/draw_data.rs, `TextureId(pub usize)`). -/
structure TextureId where
  id : Nat
deriving Repr, DecidableEq

/-- Constructor `TextureId::new` (src/draw_data.rs). -/
def TextureId.new (n : Nat) : TextureId := ⟨n⟩

/-- Generic texture mapping for use by renderers (src/util.rs, `Textures<T>`):
a `HashMap<usize, T>` together with the `next` counter. -/
structure Textures (T : Type) where
  textures : Nat → Option T
  next : Nat

/-- Constructor `Textures::new` (src/util.rs): empty map, counter 0. -/
def Textures.mkNew (T : Type) : Textures T := ⟨fun _ => none, 0⟩

/-- Method `Textures::insert` (src/util.rs): stores the value at key `next`,
increments `next`, returns the id.  The previous occupant of the slot (the
return value of `HashMap::insert`) is discarded. -/
def Textures.insert {T : Type} (m : Textures T) (texture : T) :
    Textures T × TextureId :=
  (⟨fun k => if k = m.next then some texture else m.textures k, m.next + 1⟩,
   ⟨m.next⟩)

/-- Method `Textures::replace` (src/util.rs): stores the value at key `id.0`
and returns the previous occupant; `next` is untouched. -/
def Textures.replace {T : Type} (m : Textures T) (id : TextureId) (texture : T) :
    Textures T × Option T :=
  (⟨fun k => if k = id.id then some texture else m.textures k, m.next⟩,
   m.textures id.id)

/-- Method `Textures::remove` (src/util.rs): deletes key `id.0` and returns
the previous occupant; `next` is untouched. -/
def Textures.remove {T : Type} (m : Textures T) (id : TextureId) :
    Textures T × Option T :=
  (⟨fun k => if k = id.id then none else m.textures k, m.next⟩,
   m.textures id.id)

/-- Method `Textures::get` (src/util.rs): non-owning lookup. -/
def Textures.get {T : Type} (m : Textures T) (id : TextureId) : Option T :=
  m.textures id.id

/-- One mutating call on a `Textures<T>` registry. -/
inductive Op (T : Type) where
  | insertOp (t : T)
  | replaceOp (id : TextureId) (t : T)
  | removeOp (id : TextureId)

/-- State transition of one registry call (its returned value dropped). -/
def applyOp {T : Type} (m : Textures T) : Op T → Textures T
  | .insertOp t => (m.insert t).1
  | .replaceOp id t => (m.replace id t).1
  | .removeOp id => (m.remove id).1

/-- Run a call sequence from a given registry state. -/
def runFrom {T : Type} (m : Textures T) : List (Op T) → Textures T
  | [] => m
  | op :: ops => runFrom (applyOp m op) ops

/-- Run a call sequence from a fresh registry. -/
def run {T : Type} (ops : List (Op T)) : Textures T :=
  runFrom (Textures.mkNew T) ops

/-- The ids returned by the `insert` calls of a call sequence, in call
order, starting from a given registry state. -/
def insertsFrom {T : Type} (m : Textures T) : List (Op T) → List Nat
  | [] => []
  | .insertOp t :: ops => m.next :: insertsFrom (applyOp m (.insertOp t)) ops
  | .replaceOp id t :: ops => insertsFrom (applyOp m (.replaceOp id t)) ops
  | .removeOp id :: ops => insertsFrom (applyOp m (.removeOp id)) ops

theorem applyOp_next_le {T : Type} (m : Textures T) (op : Op T) :
    m.next ≤ (applyOp m op).next := by
  cases op <;>
    simp [applyOp, Textures.insert, Textures.replace, Textures.remove]

theorem runFrom_next_le {T : Type} (ops : List (Op T)) (m : Textures T) :
    m.next ≤ (runFrom m ops).next := by
  induction ops generalizing m with
  | nil => exact Nat.le_refl _
  | cons op ops ih =>
      exact Nat.le_trans (applyOp_next_le m op) (ih (applyOp m op))

theorem mem_insertsFrom_lower {T : Type} (ops : List (Op T)) (m : Textures T)
    (i : Nat) (hi : i ∈ insertsFrom m ops) : m.next ≤ i := by
  induction ops generalizing m with
  | nil => simp [insertsFrom] at hi
  | cons op ops ih =>
      cases op with
      | insertOp t =>
          simp only [insertsFrom, List.mem_cons] at hi
          rcases hi with h | h
          · omega
          · have := ih _ h
            simp [applyOp, Textures.insert] at this
            omega
      | replaceOp id t =>
          have := ih _ hi
          simpa [applyOp, Textures.replace] using this
      | removeOp id =>
          have := ih _ hi
          simpa [applyOp, Textures.remove] using this

theorem mem_insertsFrom_upper {T : Type} (ops : List (Op T)) (m : Textures T)
    (i : Nat) (hi : i ∈ insertsFrom m ops) : i < (runFrom m ops).next := by
  induction ops generalizing m with
  | nil => simp [insertsFrom] at hi
  | cons op ops ih =>
      cases op with
      | insertOp t =>
          simp only [insertsFrom, List.mem_cons] at hi
          rcases hi with h | h
          · subst h
            have h1 : (applyOp m (Op.insertOp t)).next = m.next + 1 := by
              simp [applyOp, Textures.insert]
            have h2 := runFrom_next_le ops (applyOp m (Op.insertOp t))
            simp only [runFrom]
            omega
          · exact ih _ h
      | replaceOp id t => exact ih _ hi
      | removeOp id => exact ih _ hi

theorem insertsFrom_sorted {T : Type} (ops : List (Op T)) (m : Textures T) :
    (insertsFrom m ops).Pairwise (· < ·) := by
  induction ops generalizing m with
  | nil => simp [insertsFrom]
  | cons op ops ih =>
      cases op with
      | insertOp t =>
          simp only [insertsFrom]
          refine List.Pairwise.cons (fun j hj => ?_) (ih _)
          have := mem_insertsFrom_lower ops _ j hj
          simp [applyOp, Textures.insert] at this
          omega
      | replaceOp id t => exact ih _
      | removeOp id => exact ih _

/-- C2: across any call sequence on one registry the ids returned by
`insert` are pairwise distinct; and for any id returned by some `insert`,
immediately after `remove` of that id a `get` of it yields `none`, and the
id is not returned by any later `insert`, whatever calls follow. -/
theorem textures_insert_distinct_and_remove_forever (ops : List (Op Nat)) :
    (insertsFrom (Textures.mkNew Nat) ops).Pairwise (· ≠ ·)
    ∧ ∀ i, i ∈ insertsFrom (Textures.mkNew Nat) ops →
        (((run ops).remove ⟨i⟩).1.get ⟨i⟩ = none
         ∧ ∀ more : List (Op Nat), i ∉ insertsFrom ((run ops).remove ⟨i⟩).1 more) := by
  constructor
  · exact (insertsFrom_sorted ops _).imp Nat.ne_of_lt
  · intro i hi
    constructor
    · simp [Textures.remove, Textures.get]
    · intro more hmem
      have hup : i < (run ops).next := mem_insertsFrom_upper ops _ i hi
      have hlow := mem_insertsFrom_lower more (((run ops).remove ⟨i⟩).1) i hmem
      have hnext : (((run ops).remove ⟨i⟩).1).next = (run ops).next := by
        simp [Textures.remove]
      omega

/-- Witness for C2 at the spec's scenario: three inserts, remove of id 1,
then one more insert. -/
theorem textures_insert_distinct_and_remove_forever_witness :
    ((run [Op.insertOp 100, Op.insertOp 101, Op.insertOp 102]).remove ⟨1⟩).1.get ⟨1⟩ = none
    ∧ ∀ more : List (Op Nat),
        1 ∉ insertsFrom ((run [Op.insertOp 100, Op.insertOp 101, Op.insertOp 102]).remove ⟨1⟩).1 more :=
  (textures_insert_distinct_and_remove_forever
      [Op.insertOp 100, Op.insertOp 101, Op.insertOp 102]).2 1 (by
    simp [insertsFrom, applyOp, Textures.insert, Textures.mkNew, run, runFrom])

/-- C3 counterexample: on a fresh registry, `replace` at `TextureId::new(0)`
(allowed, since `replace` does not validate its id) occupies id 0 without
touching the counter, so the very next `insert` returns id 0 even though
id 0 is already in use in that registry. -/
theorem textures_insert_reuses_replaced_id :
    ((Textures.mkNew Nat).replace ⟨0⟩ 42).1.get ⟨0⟩ = some 42
    ∧ (((Textures.mkNew Nat).replace ⟨0⟩ 42).1.insert 7).2 = ⟨0⟩ := by
  constructor <;> rfl

/-- C3 amended: in every reachable registry state, `insert` returns the
current counter value, increments the counter, and that id was never
returned by any earlier `insert`; it may however already be occupied when
it was seeded through `replace`. -/
theorem textures_insert_returns_fresh_counter (ops : List (Op Nat)) (t : Nat) :
    ((run ops).insert t).2 = ⟨(run ops).next⟩
    ∧ ((run ops).insert t).1.next = (run ops).next + 1
    ∧ (run ops).next ∉ insertsFrom (Textures.mkNew Nat) ops := by
  refine ⟨rfl, rfl, fun hmem => ?_⟩
  have := mem_insertsFrom_upper ops (Textures.mkNew Nat) _ hmem
  simp only [run] at *
  omega

/-- C7: `replace(id, v)` followed immediately by `get(id)` yields `v`, and
the value returned by `replace` is exactly what `get(id)` would have
returned just before the call. -/
theorem textures_replace_then_get {T : Type} (m : Textures T) (id : TextureId)
    (v : T) :
    (m.replace id v).1.get id = some v ∧ (m.replace id v).2 = m.get id := by
  constructor
  · simp [Textures.replace, Textures.get]
  · rfl

/-- C10: `replace` never changes the `next` counter, and consequently a
`replace` at an id the counter has not yet reached makes a later `insert`
return an already-occupied id, silently overwriting the stored value (the
old value is not part of `insert`'s return, whose only payload is the id). -/
theorem textures_replace_keeps_counter :
    (∀ (T : Type) (m : Textures T) (id : TextureId) (v : T),
        (m.replace id v).1.next = m.next)
    ∧ (((Textures.mkNew Nat).replace ⟨0⟩ 42).1.insert 7).2 = ⟨0⟩
    ∧ ((Textures.mkNew Nat).replace ⟨0⟩ 42).1.get ⟨0⟩ = some 42
    ∧ ((((Textures.mkNew Nat).replace ⟨0⟩ 42).1.insert 7).1.get ⟨0⟩ = some 7) := by
  exact ⟨fun T m id v => rfl, rfl, rfl, rfl⟩

/-- A single vertex (src/draw_data.rs, `DrawVert`): 2D position, 2D texture
coordinate, 4-byte RGBA color.  Each f32 is its bit pattern. -/
structure DrawVert where
  pos : F32 × F32
  uv : F32 × F32
  col : Nat × Nat × Nat × Nat
deriving Repr, DecidableEq

/-- Draw command parameters (src/draw_data.rs, `DrawCmdParams`):
clip rectangle (left, up, right, down), texture id, offsets. -/
structure DrawCmdParams where
  clip_rect : F32 × F32 × F32 × F32
  texture_id : TextureId
  vtx_offset : Nat
  idx_offset : Nat
deriving Repr, DecidableEq

/-- A draw command (src/draw_data.rs, `DrawCmd`): the `RawCallback` variant
of upstream imgui is commented out of this type. -/
inductive DrawCmd where
  | Elements (count : Nat) (cmd_params : DrawCmdParams)
  | ResetRenderState
deriving Repr, DecidableEq

/-- One draw list (src/draw_data.rs, `DrawList`): commands, index buffer
(u16 indices), vertex buffer. -/
structure DrawList where
  commands : List DrawCmd
  idx_buffer : List Nat
  vtx_buffer : List DrawVert
deriving Repr, DecidableEq

/-- All draw data to render a frame (src/draw_data.rs, `DrawData`). -/
structure DrawData where
  total_idx_count : Int
  total_vtx_count : Int
  cmd_lists : List DrawList
  display_pos : F32 × F32
  display_size : F32 × F32
  framebuffer_scale : F32 × F32
deriving Repr, DecidableEq

/-- Font atlas bitmap (src/context.rs, `FontAtlasTexture`). -/
structure FontAtlasTexture where
  width : Nat
  height : Nat
  data : List Nat
deriving Repr, DecidableEq

/-! Upstream imgui types consumed by the capture boundary.  They live in the
external `imgui` crate; here only their shape matters: the same draw-data
fields, plus the third `RawCallback` draw-command variant (a C function
pointer and a raw command pointer, modelled as opaque numbers). -/

/-- Upstream `imgui::TextureId` (a usize-backed handle). -/
structure ImguiTextureId where
  id : Nat
deriving Repr, DecidableEq

/-- Upstream `imgui::DrawCmdParams`. -/
structure ImguiDrawCmdParams where
  clip_rect : F32 × F32 × F32 × F32
  texture_id : ImguiTextureId
  vtx_offset : Nat
  idx_offset : Nat
deriving Repr, DecidableEq

/-- Upstream `imgui::DrawCmd`, a three-variant type: the `RawCallback`
variant carries a native function pointer and a raw pointer, both opaque. -/
inductive ImguiDrawCmd where
  | Elements (count : Nat) (cmd_params : ImguiDrawCmdParams)
  | ResetRenderState
  | RawCallback (callback : Nat) (raw_cmd : Nat)
deriving Repr, DecidableEq

/-- Upstream `imgui::DrawVert`. -/
structure ImguiDrawVert where
  pos : F32 × F32
  uv : F32 × F32
  col : Nat × Nat × Nat × Nat
deriving Repr, DecidableEq

/-- Upstream `imgui::DrawList` (only the parts the conversion reads). -/
structure ImguiDrawList where
  commands : List ImguiDrawCmd
  idx_buffer : List Nat
  vtx_buffer : List ImguiDrawVert
deriving Repr, DecidableEq

/-- Upstream `imgui::DrawData` (only the parts the conversion reads). -/
structure ImguiDrawData where
  total_idx_count : Int
  total_vtx_count : Int
  cmd_lists : List ImguiDrawList
  display_pos : F32 × F32
  display_size : F32 × F32
  framebuffer_scale : F32 × F32
deriving Repr, DecidableEq

/-- Conversion `From<imgui::TextureId> for TextureId` (src/draw_data.rs):
a transmute of the underlying usize. -/
def textureIdFromImgui (i : ImguiTextureId) : TextureId := ⟨i.id⟩

/-- Conversion `From<&imgui::DrawCmdParams> for DrawCmdParams`
(src/draw_data.rs): copies every field. -/
def drawCmdParamsFromImgui (p : ImguiDrawCmdParams) : DrawCmdParams :=
  ⟨p.clip_rect, textureIdFromImgui p.texture_id, p.vtx_offset, p.idx_offset⟩

/-- Conversion `From<imgui::DrawCmd> for DrawCmd` (src/draw_data.rs):
`Elements` and `ResetRenderState` convert field-for-field; `RawCallback`
panics, modelled as an error result. -/
def drawCmdFromImgui : ImguiDrawCmd → Except String DrawCmd
  | .Elements count p => .ok (.Elements count (drawCmdParamsFromImgui p))
  | .ResetRenderState => .ok .ResetRenderState
  | .RawCallback _ _ => .error "DrawCmd::RawCallback not supported"

/-- Conversion `From<&imgui::DrawVert> for DrawVert` (src/draw_data.rs). -/
def drawVertFromImgui (v : ImguiDrawVert) : DrawVert := ⟨v.pos, v.uv, v.col⟩

/-- Collecting an iterator of fallible conversions: the first failure (a
panic in the Rust code) aborts the whole collection. -/
def mapExcept {α β ε : Type} (f : α → Except ε β) : List α → Except ε (List β)
  | [] => .ok []
  | a :: as =>
    match f a with
    | .error e => .error e
    | .ok b =>
      match mapExcept f as with
      | .error e => .error e
      | .ok bs => .ok (b :: bs)

/-- Conversion `From<&imgui::DrawList> for DrawList` (src/draw_data.rs):
converts each command (propagating the `RawCallback` panic), copies the
index buffer, converts each vertex. -/
def drawListFromImgui (d : ImguiDrawList) : Except String DrawList :=
  match mapExcept drawCmdFromImgui d.commands with
  | .error e => .error e
  | .ok cmds => .ok ⟨cmds, d.idx_buffer, d.vtx_buffer.map drawVertFromImgui⟩

/-- Conversion `From<&imgui::DrawData> for DrawData` (src/draw_data.rs):
copies the totals and viewport metadata, converts every list. -/
def drawDataFromImgui (d : ImguiDrawData) : Except String DrawData :=
  match mapExcept drawListFromImgui d.cmd_lists with
  | .error e => .error e
  | .ok lists =>
      .ok ⟨d.total_idx_count, d.total_vtx_count, lists,
           d.display_pos, d.display_size, d.framebuffer_scale⟩

/-- C4: converting an upstream draw command fails exactly on the
native-callback variant, and the two supported variants convert without
failure, field-for-field. -/
theorem drawCmd_conversion_fails_iff_rawCallback :
    (∀ c : ImguiDrawCmd,
        (∃ e, drawCmdFromImgui c = .error e) ↔ ∃ cb rc, c = .RawCallback cb rc)
    ∧ (∀ count p, drawCmdFromImgui (.Elements count p) =
        .ok (.Elements count
          ⟨p.clip_rect, ⟨p.texture_id.id⟩, p.vtx_offset, p.idx_offset⟩))
    ∧ drawCmdFromImgui .ResetRenderState = .ok .ResetRenderState := by
  refine ⟨fun c => ?_, fun count p => rfl, rfl⟩
  cases c with
  | Elements count p => simp [drawCmdFromImgui]
  | ResetRenderState => simp [drawCmdFromImgui]
  | RawCallback cb rc => simp [drawCmdFromImgui]

theorem mapExcept_drawList_lengths (ls : List ImguiDrawList)
    (ls' : List DrawList) (h : mapExcept drawListFromImgui ls = .ok ls') :
    ls'.map (fun l => (l.vtx_buffer.length : Int)) =
      ls.map (fun l => (l.vtx_buffer.length : Int))
    ∧ ls'.map (fun l => (l.idx_buffer.length : Int)) =
      ls.map (fun l => (l.idx_buffer.length : Int)) := by
  induction ls generalizing ls' with
  | nil =>
      simp only [mapExcept] at h
      cases h
      simp
  | cons a as ih =>
      simp only [mapExcept] at h
      cases ha : drawListFromImgui a with
      | error e => rw [ha] at h; cases h
      | ok b =>
          rw [ha] at h
          cases has : mapExcept drawListFromImgui as with
          | error e => rw [has] at h; cases h
          | ok bs =>
              rw [has] at h
              cases h
              obtain ⟨ihv, ihi⟩ := ih bs has
              have hb : b.vtx_buffer.length = a.vtx_buffer.length
                  ∧ b.idx_buffer.length = a.idx_buffer.length := by
                simp only [drawListFromImgui] at ha
                cases hc : mapExcept drawCmdFromImgui a.commands with
                | error e => rw [hc] at ha; cases ha
                | ok cmds =>
                    rw [hc] at ha
                    cases ha
                    simp
              simp [List.map_cons, ihv, ihi, hb.1, hb.2]

/-- C5: a captured frame whose upstream totals satisfy the sum invariant
(which upstream imgui guarantees for the frames it hands to the capture
boundary) yields a `DrawData` whose `total_vtx_count` and `total_idx_count`
equal the sums of its own lists' vertex- and index-buffer lengths. -/
theorem capture_preserves_buffer_totals (d : ImguiDrawData) (dd : DrawData)
    (hok : drawDataFromImgui d = .ok dd)
    (hv : d.total_vtx_count =
      (d.cmd_lists.map (fun l => (l.vtx_buffer.length : Int))).sum)
    (hi : d.total_idx_count =
      (d.cmd_lists.map (fun l => (l.idx_buffer.length : Int))).sum) :
    dd.total_vtx_count =
      (dd.cmd_lists.map (fun l => (l.vtx_buffer.length : Int))).sum
    ∧ dd.total_idx_count =
      (dd.cmd_lists.map (fun l => (l.idx_buffer.length : Int))).sum := by
  simp only [drawDataFromImgui] at hok
  cases hls : mapExcept drawListFromImgui d.cmd_lists with
  | error e => rw [hls] at hok; cases hok
  | ok lists =>
      rw [hls] at hok
      cases hok
      obtain ⟨hvl, hil⟩ := mapExcept_drawList_lengths d.cmd_lists lists hls
      exact ⟨by simp [hvl, hv], by simp [hil, hi]⟩

/-- A concrete one-list upstream frame used to witness C5. -/
def sampleImguiFrame : ImguiDrawData :=
  ⟨3, 1,
   [⟨[ImguiDrawCmd.ResetRenderState], [0, 0, 0], [⟨(0, 0), (0, 0), (0, 0, 0, 0)⟩]⟩],
   (0, 0), (1139802112, 1142292480), (1065353216, 1065353216)⟩

/-- The owned snapshot the capture boundary produces from
`sampleImguiFrame`. -/
def sampleFrame : DrawData :=
  ⟨3, 1,
   [⟨[DrawCmd.ResetRenderState], [0, 0, 0], [⟨(0, 0), (0, 0), (0, 0, 0, 0)⟩]⟩],
   (0, 0), (1139802112, 1142292480), (1065353216, 1065353216)⟩

/-- Witness for C5 at a concrete captured frame. -/
theorem capture_preserves_buffer_totals_witness :
    sampleFrame.total_vtx_count =
      (sampleFrame.cmd_lists.map (fun l => (l.vtx_buffer.length : Int))).sum
    ∧ sampleFrame.total_idx_count =
      (sampleFrame.cmd_lists.map (fun l => (l.idx_buffer.length : Int))).sum :=
  capture_preserves_buffer_totals sampleImguiFrame sampleFrame rfl
    (by decide) (by decide)

/-! Iterator model for the accessors: a slice iterator over a list of
items, stepped with `next`, exactly the shape of `self.cmd_lists.iter()`
and `self.commands.clone().into_iter()`. -/

/-- An iterator over a list: the items not yet yielded, in order. -/
structure SliceIter (α : Type) where
  remaining : List α

/-- Step the iterator: the next item and the advanced iterator, if any. -/
def SliceIter.next {α : Type} (it : SliceIter α) : Option (α × SliceIter α) :=
  match it.remaining with
  | [] => none
  | a :: as => some (a, ⟨as⟩)

def collectAux {α : Type} : Nat → SliceIter α → List α
  | 0, _ => []
  | fuel + 1, it =>
    match it.next with
    | none => []
    | some (a, it') => a :: collectAux fuel it'

/-- Drain the iterator by repeated `next` calls. -/
def SliceIter.collect {α : Type} (it : SliceIter α) : List α :=
  collectAux it.remaining.length it

/-- Accessor `DrawData::draw_lists` (src/draw_data.rs):
`self.cmd_lists.iter()`. -/
def DrawData.draw_lists (d : DrawData) : SliceIter DrawList :=
  ⟨d.cmd_lists⟩

/-- Accessor `DrawList::commands` (src/draw_data.rs):
`self.commands.clone().into_iter()`; cloning an owned list is the
identity on its value. -/
def DrawList.commandsIter (dl : DrawList) : SliceIter DrawCmd :=
  ⟨dl.commands⟩

theorem collectAux_eq {α : Type} (l : List α) :
    collectAux l.length ⟨l⟩ = l := by
  induction l with
  | nil => rfl
  | cons a as ih => simp [collectAux, SliceIter.next, ih]

/-- C8: draining `draw_lists()` yields exactly the stored draw lists in
storage order, and draining `commands()` yields exactly the stored
commands in insertion order; both are finite lists, each fresh iterator is
built from the unchanged stored data (so repeated calls yield the same
sequence), and iteration consumes only the iterator value, never the
`DrawData` or `DrawList`. -/
theorem draw_lists_and_commands_iterate_in_order (d : DrawData) (dl : DrawList) :
    d.draw_lists.collect = d.cmd_lists
    ∧ dl.commandsIter.collect = dl.commands
    ∧ d.draw_lists.collect = d.draw_lists.collect
    ∧ dl.commandsIter.collect = dl.commandsIter.collect := by
  refine ⟨?_, ?_, rfl, rfl⟩
  · exact collectAux_eq d.cmd_lists
  · exact collectAux_eq dl.commands

/-! Serialization.  Modelled from the spec: the serialized form is produced
by the serde `Serialize`/`Deserialize` derives on the data-model structs
(code generated outside src/); the spec requires a byte-exact structural
encode/decode round trip, field-for-field, preserving array ordering.  The
codec below writes each field in declaration order into a flat word stream,
length-prefixing every array, and the decoder consumes the stream back. -/

/-- Decode one word. -/
def decNat : List Nat → Option (Nat × List Nat)
  | [] => none
  | n :: rest => some (n, rest)

/-- Encode an i32: sign flag then magnitude. -/
def encInt (i : Int) : List Nat :=
  [if i < 0 then 1 else 0, i.natAbs]

/-- Decode an i32. -/
def decInt : List Nat → Option (Int × List Nat)
  | s :: n :: rest => if s = 0 then some ((n : Int), rest) else some (-(n : Int), rest)
  | _ => none

/-- Concatenated encodings of the elements of an array. -/
def encListAux {α : Type} (enc : α → List Nat) : List α → List Nat
  | [] => []
  | a :: as => enc a ++ encListAux enc as

/-- Encode an array: length prefix, then the elements in order. -/
def encList {α : Type} (enc : α → List Nat) (l : List α) : List Nat :=
  l.length :: encListAux enc l

/-- Decode exactly `n` consecutive elements. -/
def decListAux {α : Type} (dec : List Nat → Option (α × List Nat)) :
    Nat → List Nat → Option (List α × List Nat)
  | 0, rest => some ([], rest)
  | n + 1, rest =>
    match dec rest with
    | none => none
    | some (a, rest') =>
      match decListAux dec n rest' with
      | none => none
      | some (as, rest'') => some (a :: as, rest'')

/-- Decode an array: length prefix, then that many elements. -/
def decList {α : Type} (dec : List Nat → Option (α × List Nat))
    (s : List Nat) : Option (List α × List Nat) :=
  match decNat s with
  | none => none
  | some (n, rest) => decListAux dec n rest

def encTextureId (t : TextureId) : List Nat := [t.id]

def decTextureId : List Nat → Option (TextureId × List Nat)
  | [] => none
  | n :: rest => some (⟨n⟩, rest)

def encDrawVert (v : DrawVert) : List Nat :=
  [v.pos.1, v.pos.2, v.uv.1, v.uv.2, v.col.1, v.col.2.1, v.col.2.2.1, v.col.2.2.2]

def decDrawVert : List Nat → Option (DrawVert × List Nat)
  | p1 :: p2 :: u1 :: u2 :: c1 :: c2 :: c3 :: c4 :: rest =>
      some (⟨(p1, p2), (u1, u2), (c1, c2, c3, c4)⟩, rest)
  | _ => none

def encDrawCmdParams (p : DrawCmdParams) : List Nat :=
  [p.clip_rect.1, p.clip_rect.2.1, p.clip_rect.2.2.1, p.clip_rect.2.2.2,
   p.texture_id.id, p.vtx_offset, p.idx_offset]

def decDrawCmdParams : List Nat → Option (DrawCmdParams × List Nat)
  | r1 :: r2 :: r3 :: r4 :: t :: vo :: io :: rest =>
      some (⟨(r1, r2, r3, r4), ⟨t⟩, vo, io⟩, rest)
  | _ => none

def encDrawCmd : DrawCmd → List Nat
  | .Elements count p => 0 :: count :: encDrawCmdParams p
  | .ResetRenderState => [1]

def decDrawCmd : List Nat → Option (DrawCmd × List Nat)
  | 0 :: rest =>
    match decNat rest with
    | none => none
    | some (count, rest') =>
      match decDrawCmdParams rest' with
      | none => none
      | some (p, rest'') => some (.Elements count p, rest'')
  | 1 :: rest => some (.ResetRenderState, rest)
  | _ => none

def encDrawList (dl : DrawList) : List Nat :=
  encList encDrawCmd dl.commands ++ encList decNatId dl.idx_buffer ++
    encList encDrawVert dl.vtx_buffer
where
  /-- Encode one u16 index. -/
  decNatId (n : Nat) : List Nat := [n]

def decDrawList (s : List Nat) : Option (DrawList × List Nat) :=
  match decList decDrawCmd s with
  | none => none
  | some (cmds, s) =>
    match decList decNat s with
    | none => none
    | some (idx, s) =>
      match decList decDrawVert s with
      | none => none
      | some (vtx, s) => some (⟨cmds, idx, vtx⟩, s)

def encDrawData (d : DrawData) : List Nat :=
  encInt d.total_idx_count ++ encInt d.total_vtx_count ++
    encList encDrawList d.cmd_lists ++
    [d.display_pos.1, d.display_pos.2, d.display_size.1, d.display_size.2,
     d.framebuffer_scale.1, d.framebuffer_scale.2]

def decDrawData (s : List Nat) : Option (DrawData × List Nat) :=
  match decInt s with
  | none => none
  | some (tic, s) =>
    match decInt s with
    | none => none
    | some (tvc, s) =>
      match decList decDrawList s with
      | none => none
      | some (lists, s) =>
        match s with
        | dp1 :: dp2 :: ds1 :: ds2 :: fs1 :: fs2 :: rest =>
            some (⟨tic, tvc, lists, (dp1, dp2), (ds1, ds2), (fs1, fs2)⟩, rest)
        | _ => none

def encFontAtlasTexture (f : FontAtlasTexture) : List Nat :=
  f.width :: f.height :: encList encFontByte f.data
where
  /-- Encode one u8 of bitmap data. -/
  encFontByte (n : Nat) : List Nat := [n]

def decFontAtlasTexture : List Nat → Option (FontAtlasTexture × List Nat)
  | w :: h :: s =>
    match decList decNat s with
    | none => none
    | some (data, rest) => some (⟨w, h, data⟩, rest)
  | _ => none

theorem decInt_encInt (i : Int) (r : List Nat) :
    decInt (encInt i ++ r) = some (i, r) := by
  by_cases h : i < 0
  · have hv : (-(i.natAbs : Int)) = i := by omega
    simp only [encInt, if_pos h, List.cons_append, List.nil_append, decInt,
      if_neg (by omega : ¬ (1 : Nat) = 0), hv]
  · have hv : ((i.natAbs : Int)) = i := by omega
    simp [encInt, if_neg h, decInt, hv]

theorem decListAux_encListAux {α : Type} (enc : α → List Nat)
    (dec : List Nat → Option (α × List Nat))
    (h : ∀ a r, dec (enc a ++ r) = some (a, r)) (l : List α) (r : List Nat) :
    decListAux dec l.length (encListAux enc l ++ r) = some (l, r) := by
  induction l generalizing r with
  | nil => rfl
  | cons a as ih =>
      simp only [encListAux, List.length_cons, List.append_assoc, decListAux,
        h a, ih]

theorem decList_encList {α : Type} (enc : α → List Nat)
    (dec : List Nat → Option (α × List Nat))
    (h : ∀ a r, dec (enc a ++ r) = some (a, r)) (l : List α) (r : List Nat) :
    decList dec (encList enc l ++ r) = some (l, r) := by
  simp only [encList, List.cons_append, decList, decNat,
    decListAux_encListAux enc dec h l r]

theorem decDrawCmd_encDrawCmd (c : DrawCmd) (r : List Nat) :
    decDrawCmd (encDrawCmd c ++ r) = some (c, r) := by
  cases c <;> rfl

theorem decDrawList_encDrawList (dl : DrawList) (r : List Nat) :
    decDrawList (encDrawList dl ++ r) = some (dl, r) := by
  simp only [encDrawList, List.append_assoc, decDrawList,
    decList_encList encDrawCmd decDrawCmd decDrawCmd_encDrawCmd,
    decList_encList encDrawList.decNatId decNat (fun a r => rfl),
    decList_encList encDrawVert decDrawVert (fun a r => rfl)]

theorem decDrawData_encDrawData (d : DrawData) (r : List Nat) :
    decDrawData (encDrawData d ++ r) = some (d, r) := by
  simp only [encDrawData, List.append_assoc, decDrawData, decInt_encInt,
    decList_encList encDrawList decDrawList decDrawList_encDrawList,
    List.cons_append, List.nil_append]

/-- C1: for every data-model entity, decoding the encoding yields the
original value with the whole stream consumed — a field-for-field,
array-order-preserving round trip for DrawData, DrawList, DrawCmd,
DrawCmdParams, DrawVert, TextureId and FontAtlasTexture. -/
theorem serde_roundtrip_all_entities :
    (∀ d : DrawData, decDrawData (encDrawData d) = some (d, []))
    ∧ (∀ dl : DrawList, decDrawList (encDrawList dl) = some (dl, []))
    ∧ (∀ c : DrawCmd, decDrawCmd (encDrawCmd c) = some (c, []))
    ∧ (∀ p : DrawCmdParams, decDrawCmdParams (encDrawCmdParams p) = some (p, []))
    ∧ (∀ v : DrawVert, decDrawVert (encDrawVert v) = some (v, []))
    ∧ (∀ t : TextureId, decTextureId (encTextureId t) = some (t, []))
    ∧ (∀ f : FontAtlasTexture,
        decFontAtlasTexture (encFontAtlasTexture f) = some (f, [])) := by
  refine ⟨fun d => ?_, fun dl => ?_, fun c => ?_, fun p => rfl, fun v => rfl,
    fun t => rfl, fun f => ?_⟩
  · have := decDrawData_encDrawData d []
    simpa using this
  · have := decDrawList_encDrawList dl []
    simpa using this
  · have := decDrawCmd_encDrawCmd c []
    simpa using this
  · have hlist : decList decNat (encList encFontAtlasTexture.encFontByte f.data)
        = some (f.data, []) := by
      have := decList_encList encFontAtlasTexture.encFontByte decNat
        (fun a r => rfl) f.data []
      simpa using this
    simp only [encFontAtlasTexture, decFontAtlasTexture, hlist]

/-! Memory model of the vertex buffer for `transmute_vtx_buffer`.
`DrawVert` is `repr(C)` with fields `[f32; 2]`, `[f32; 2]`, `[u8; 4]`:
20 bytes, alignment 4, no padding.  A slice's memory is its elements'
bytes laid out consecutively; reinterpreting it as a slice of `VTy` (after
the size/alignment assertions) yields `vtx_buffer.len()` consecutive
`size_of::<VTy>()`-byte chunks of that memory. -/

/-- size_of::<DrawVert>(): 2*4 + 2*4 + 4 bytes. -/
def drawVertSize : Nat := 20

/-- align_of::<DrawVert>(): that of f32. -/
def drawVertAlign : Nat := 4

/-- Little-endian bytes of an f32 bit pattern. -/
def bytesOfF32 (b : F32) : List Nat :=
  [b % 256, b / 256 % 256, b / 65536 % 256, b / 16777216 % 256]

/-- In-memory bytes of one `DrawVert` under `repr(C)`. -/
def DrawVert.toBytes (v : DrawVert) : List Nat :=
  bytesOfF32 v.pos.1 ++ bytesOfF32 v.pos.2 ++ bytesOfF32 v.uv.1 ++
    bytesOfF32 v.uv.2 ++ [v.col.1, v.col.2.1, v.col.2.2.1, v.col.2.2.2]

/-- In-memory bytes of a vertex buffer: its vertices' bytes in order. -/
def flatBytes : List DrawVert → List Nat
  | [] => []
  | v :: vs => v.toBytes ++ flatBytes vs

/-- Split a byte sequence into consecutive chunks of `n` bytes (the last
chunk possibly shorter). -/
def chunksOf {α : Type} (n : Nat) : List α → List (List α)
  | [] => []
  | a :: as =>
    if n = 0 then []
    else (a :: as).take n :: chunksOf n (as.drop (n - 1))
  termination_by l => l.length
  decreasing_by
    simp only [List.length_drop, List.length_cons]
    omega

/-- Method `DrawList::transmute_vtx_buffer` (src/draw_data.rs), at the
byte level: the `assert_eq!` on sizes and the `assert!` on alignments
abort (modelled as `none`) unless `size_of::<VTy>() = size_of::<DrawVert>()`
and `align_of::<VTy>() <= align_of::<DrawVert>()`; otherwise
`from_raw_parts` reinterprets the buffer's memory as `vtx_buffer.len()`
elements of `sizeV` bytes each. -/
def DrawList.transmute_vtx_buffer (dl : DrawList) (sizeV alignV : Nat) :
    Option (List (List Nat)) :=
  if sizeV = drawVertSize ∧ alignV ≤ drawVertAlign then
    some (chunksOf sizeV (flatBytes dl.vtx_buffer))
  else none

theorem toBytes_length (v : DrawVert) : v.toBytes.length = 20 := by
  simp [DrawVert.toBytes, bytesOfF32]

theorem chunksOf_append {α : Type} (n : Nat) (a l : List α)
    (hn : 0 < n) (ha : a.length = n) :
    chunksOf n (a ++ l) = a :: chunksOf n l := by
  cases a with
  | nil => simp at ha; omega
  | cons x xs =>
      rw [List.cons_append, chunksOf, if_neg (by omega)]
      congr 1
      · rw [← List.cons_append, ← ha, List.take_left]
      · have hx : n - 1 = xs.length := by
          simp only [List.length_cons] at ha
          omega
        rw [hx, List.drop_left]

theorem chunksOf_flatBytes (vs : List DrawVert) :
    chunksOf 20 (flatBytes vs) = vs.map DrawVert.toBytes := by
  induction vs with
  | nil => simp [flatBytes, chunksOf]
  | cons v vs ih =>
      simp only [flatBytes, List.map_cons]
      rw [chunksOf_append 20 v.toBytes (flatBytes vs) (by omega)
        (toBytes_length v), ih]

/-- C9: when the alternate vertex type has the same 20-byte size and
alignment at most 4, reinterpreting the vertex buffer succeeds and yields
one chunk per original vertex — same length as `vtx_buffer()`, each chunk
being exactly the byte pattern of the corresponding vertex; when the size
precondition fails, the assertion aborts the operation instead of
producing bytes. -/
theorem transmute_vtx_buffer_reinterprets_bytes (dl : DrawList)
    (sizeV alignV : Nat) :
    (sizeV = 20 → alignV ≤ 4 →
      dl.transmute_vtx_buffer sizeV alignV
          = some (dl.vtx_buffer.map DrawVert.toBytes)
        ∧ (dl.vtx_buffer.map DrawVert.toBytes).length = dl.vtx_buffer.length)
    ∧ (sizeV ≠ 20 → dl.transmute_vtx_buffer sizeV alignV = none) := by
  constructor
  · intro hs hal
    subst hs
    refine ⟨?_, List.length_map _ _⟩
    rw [DrawList.transmute_vtx_buffer,
      if_pos ⟨rfl, by simpa [drawVertAlign] using hal⟩,
      chunksOf_flatBytes]
  · intro hs
    rw [DrawList.transmute_vtx_buffer, if_neg (by simp [drawVertSize]; omega)]

/-- A concrete one-vertex draw list used to witness C9. -/
def sampleList : DrawList :=
  ⟨[], [], [⟨(1065353216, 0), (0, 1065353216), (255, 128, 0, 255)⟩]⟩

/-- Witness for C9: reinterpreting the one-vertex sample list with a
20-byte, 4-aligned alternate type succeeds chunk-for-chunk. -/
theorem transmute_vtx_buffer_reinterprets_bytes_witness :
    sampleList.transmute_vtx_buffer 20 4
        = some (sampleList.vtx_buffer.map DrawVert.toBytes)
      ∧ (sampleList.vtx_buffer.map DrawVert.toBytes).length
        = sampleList.vtx_buffer.length :=
  (transmute_vtx_buffer_reinterprets_bytes sampleList 20 4).1 rfl
    (by decide)

/-- Modelled from the spec: no function in src/ constructs or checks
DrawList index validity (lists are deep-copied from the toolkit, which is
trusted to emit in-bounds indices), so the spec's notion of a valid
DrawList is embedded as this executable predicate: every index of the
index buffer is below the vertex-buffer length. -/
def DrawList.validIndices (dl : DrawList) : Bool :=
  dl.idx_buffer.all fun i => decide (i < dl.vtx_buffer.length)

/-- C6: a DrawList is valid exactly when every index stored in its index
buffer is strictly less than the length of its own vertex buffer —
indices are local to the list. -/
theorem validIndices_iff_indices_in_bounds (dl : DrawList) :
    dl.validIndices = true ↔
      ∀ i ∈ dl.idx_buffer, i < dl.vtx_buffer.length := by
  simp [DrawList.validIndices, List.all_eq_true]

end ImguiRs
